import Mathlib

/-!
linguist: the translator's lookup and load operations

A shallow embedding of `src/linguist/translator.cxx`, of the Linux
`detect_system_locale` in `src/linguist/translator-linux.cxx`, and of the escaping
loop of `src/linguist-embed-tool/main.cxx`.

* A `std::string` is a Lean `String`; each C++ `char` is one `Char`.
* A `std::unordered_map<std::string, V>` is the list of its entries in the
  container's iteration order (`umap V`).  The order is whatever the container
  produces; nothing below assumes a particular one.  A real container never holds
  two entries with the same key, which is the predicate `umap.wf`.
* `std::optional<T>` is `Option T`, `std::nullopt` is `none`.
* `nlohmann::json::parse` and the conversion of the parsed document to the store
  type are library code; they are parameters of `load_from_string`, returning
  `none` where the library throws.
* A `size_t` search result is `Option Nat`, `none` being `npos`; where the code
  computes with it (`npos + 1`), the value is taken modulo `2 ^ 64`.
* A `while` loop is a function with a fuel argument, `none` when the fuel runs out;
  the theorems give a fuel that suffices.
-/

namespace linguist

/-! ## std::string operations used by the translator -/

/-- The search loop of `s.find(pat)` over the characters still to be scanned, `i`
being the index of the first of them. -/
def find_from (pat : List Char) : List Char → Nat → Option Nat
  | [], i => if pat = [] then some i else none
  | c :: cs, i => if pat.isPrefixOf (c :: cs) then some i else find_from pat cs (i + 1)

/-- `s.find(pat)`: index of the first occurrence of `pat` in `s`; `none` is `npos`. -/
def str_find (s pat : String) : Option Nat :=
  find_from pat.data s.data 0

/-- `s.find(c)` for a single character. -/
def str_find_char (s : String) (c : Char) : Option Nat :=
  find_from [c] s.data 0

/-- `s.substr(pos, count)` for `pos <= s.size()`. -/
def substr (s : String) (pos count : Nat) : String :=
  String.mk ((s.data.drop pos).take count)

/-! ## std::unordered_map -/

/-- A `std::unordered_map<std::string, V>`, as its entries in iteration order. -/
abbrev umap (V : Type) := List (String × V)

/-- The keys of a container are pairwise distinct. -/
def umap.wf {V : Type} (m : umap V) : Prop :=
  (m.map Prod.fst).Nodup

instance umap.decidable_wf {V : Type} (m : umap V) : Decidable m.wf :=
  inferInstanceAs (Decidable (m.map Prod.fst).Nodup)

/-- `m.find(key)`: the entry stored under `key`; `none` is `m.end()`. -/
def umap.find {V : Type} (m : umap V) (key : String) : Option (String × V) :=
  List.find? (fun e => e.1 == key) m

/-- `m.empty()`. -/
def umap.empty {V : Type} (m : umap V) : Bool :=
  m.isEmpty

/-- `m.begin()`, for a container that may be empty (`none` is `m.end()`). -/
def umap.begin {V : Type} (m : umap V) : Option (String × V) :=
  m.head?

/-! ## The translator -/

/-- The store type `translations_` has. -/
abbrev store := umap (umap String)

/-- The data members of `class translator`. -/
structure translator where
  current_locale_ : String
  translations_ : store
  deriving DecidableEq, Repr

/-- `translator::set_locale`. -/
def set_locale (t : translator) (locale : String) : translator :=
  { t with current_locale_ := locale }

/-- `translator::get_locale`. -/
def get_locale (t : translator) : String :=
  t.current_locale_

/-- The range-for of `translate(identifier)` over `locale_map`: it returns the
translation of the first entry whose code has `baseLocale` at index 0, and falls
through (`none`) when no entry has. -/
def base_scan (baseLocale : String) : umap String → Option String
  | [] => none
  | (locale, translation) :: rest =>
      if str_find locale baseLocale = some 0 then some translation
      else base_scan baseLocale rest

/-- The block `if (dashPos != npos) { ... }` of `translate(identifier)`: `some s`
when it returns `s`, `none` when control reaches the code after it. -/
def base_fallback (current_locale_ : String) (locale_map : umap String) : Option String :=
  match str_find_char current_locale_ '-' with
  | some dashPos => base_scan (substr current_locale_ 0 dashPos) locale_map
  | none => none

/-- `translator::translate(identifier)`. -/
def translate (t : translator) (identifier : String) : Option String :=
  match t.translations_.find identifier with
  | none => none
  | some it =>
      let locale_map := it.2
      match locale_map.find t.current_locale_ with
      | some localeIt => some localeIt.2
      | none =>
          match base_fallback t.current_locale_ locale_map with
          | some translation => some translation
          | none =>
              if !locale_map.empty then
                match locale_map.begin with
                | some first => some first.2
                | none => none
              else none

/-- `translator::translate(identifier, fallback)`. -/
def translate_fallback (t : translator) (identifier fallback : String) : String :=
  let result := translate t identifier
  result.getD fallback

/-- `translator::translate(identifier, locale, bool)`. -/
def translate_locale (t : translator) (identifier locale : String) (_ : Bool) :
    Option String :=
  match t.translations_.find identifier with
  | none => none
  | some it =>
      let locale_map := it.2
      match locale_map.find locale with
      | some localeIt => some localeIt.2
      | none => none

/-- `translator::has_translation`. -/
def has_translation (t : translator) (identifier : String) : Bool :=
  (translate t identifier).isSome

/-- `translator::load_from_string`.  `parse` is `nlohmann::json::parse` and
`convert` the library's conversion of the parsed document to the store type; each is
`none` where the library throws.  The right-hand side of the assignment is evaluated
before `translations_` is written, so a throw leaves the member as it was and the
handler returns `false`. -/
def load_from_string {J : Type} (parse : String → Option J) (convert : J → Option store)
    (t : translator) (json_content : String) : translator × Bool :=
  match parse json_content with
  | none => (t, false)
  | some j =>
      match convert j with
      | none => (t, false)
      | some m =>
          let t1 := { t with translations_ := m }
          (t1, !t1.translations_.empty)

/-! ## `get_available_locales` -/

/-- `m[key] = value`.  A key already present keeps its place and takes the new
value.  A new key is inserted, after which the container may arrange its entries in
any order: `layout` is that arrangement, the container's choice. -/
def umap.assign {V : Type} (layout : umap V → umap V) (m : umap V) (key : String)
    (value : V) : umap V :=
  match m.find key with
  | some _ => m.map (fun e => if e.1 == key then (e.1, value) else e)
  | none => layout ((key, value) :: m)

/-- `translator::get_available_locales`: the two nested range-fors fill `localeSet`,
then the keys of `localeSet` are pushed back in its iteration order. -/
def get_available_locales (layout : umap Bool → umap Bool) (t : translator) :
    List String :=
  let localeSet : umap Bool :=
    t.translations_.foldl
      (fun acc entry => entry.2.foldl (fun acc2 le => umap.assign layout acc2 le.1 true) acc)
      []
  localeSet.map Prod.fst

/-! ## `detect_system_locale`, Linux variant -/

/-- `std::string::npos`, the largest `size_t`. -/
def npos : Nat := 2 ^ 64 - 1

/-- The `size_t` a search returns. -/
def size_t_val : Option Nat → Nat
  | none => npos
  | some i => i

/-- The scan of `s.find_first_not_of(chars)`, `i` being the index of the first
character still to be looked at. -/
def first_not_of_from (chars : List Char) : List Char → Nat → Option Nat
  | [], _ => none
  | c :: cs, i => if c ∈ chars then first_not_of_from chars cs (i + 1) else some i

/-- `s.find_first_not_of(chars)`. -/
def find_first_not_of (s chars : String) : Option Nat :=
  first_not_of_from chars.data s.data 0

/-- The backward scan of `s.find_last_not_of(chars)` over the reversed string: the
index of a character is the number of characters that stand before it. -/
def last_not_of_rev (chars : List Char) : List Char → Option Nat
  | [] => none
  | c :: cs => if c ∈ chars then last_not_of_rev chars cs else some cs.length

/-- `s.find_last_not_of(chars)`. -/
def find_last_not_of (s chars : String) : Option Nat :=
  last_not_of_rev chars.data s.data.reverse

/-- `s.erase(pos, count)` for `pos <= s.size()`: removes `min(count, size - pos)`
characters from index `pos`. -/
def erase (s : String) (pos count : Nat) : String :=
  String.mk (s.data.take pos ++ s.data.drop (pos + min count (s.data.length - pos)))

/-- `s[pos] = c` for `pos < s.size()`. -/
def set_char (s : String) (pos : Nat) (c : Char) : String :=
  String.mk (s.data.set pos c)

/-- `translator::detect_system_locale` of `translator-linux.cxx`; `lang` is the
result of `std::getenv("LANG")`, `none` for a null pointer.  The sum
`find_last_not_of(...) + 1` is a `size_t` sum, so it is taken modulo `2 ^ 64`. -/
def detect_system_locale (lang : Option String) : String :=
  match lang with
  | some value =>
      let locale := value
      let locale := erase locale 0 (size_t_val (find_first_not_of locale " \t\n\r"))
      let locale :=
        erase locale ((size_t_val (find_last_not_of locale " \t\n\r") + 1) % 2 ^ 64) npos
      let locale :=
        match str_find_char locale '.' with
        | some dot_position => substr locale 0 dot_position
        | none => locale
      if locale = "" ∨ locale = "C" ∨ locale = "POSIX" then "en-US"
      else
        match str_find_char locale '_' with
        | some underscore_position => set_char locale underscore_position '-'
        | none => locale
  | none => "en-US"

/-- The whitespace characters the trimming step names. -/
def is_trimmed_char (c : Char) : Bool :=
  c = ' ' || c = '\t' || c = '\n' || c = '\r'

/-- The description "trimming surrounding whitespace". -/
def trim_spec (s : List Char) : List Char :=
  ((s.dropWhile is_trimmed_char).reverse.dropWhile is_trimmed_char).reverse

/-- The description "cutting everything from the first dot". -/
def cut_spec (s : List Char) : List Char :=
  s.takeWhile (fun c => c != '.')

/-- The description "only its first underscore replaced by a dash". -/
def replace_first_spec : List Char → List Char
  | [] => []
  | c :: cs => if c = '_' then '-' :: cs else c :: replace_first_spec cs

/-- The description of the detected locale: the default for an unset `LANG` and
for a trimmed, cut value that is empty, `C` or `POSIX`; otherwise the trimmed, cut
value with its first underscore replaced. -/
def detect_system_locale_spec (lang : Option String) : String :=
  match lang with
  | none => "en-US"
  | some value =>
      let s := cut_spec (trim_spec value.data)
      if s = [] ∨ s = ['C'] ∨ s = ['P', 'O', 'S', 'I', 'X'] then "en-US"
      else String.mk (replace_first_spec s)

/-! ## The embedding tool's escaping loop -/

/-- `s.find(c, pos)`: the search starts at index `pos`. -/
def str_find_char_from (s : String) (c : Char) (pos : Nat) : Option Nat :=
  find_from [c] (s.data.drop pos) pos

/-- `s.replace(pos, count, str)` for `pos <= s.size()`. -/
def replace (s : String) (pos count : Nat) (str : String) : String :=
  String.mk (s.data.take pos ++ str.data ++
    s.data.drop (pos + min count (s.data.length - pos)))

/-- The `while` loop of the tool's `main` that escapes `escaped_text`, started with
the current `pos`; `fuel` bounds the number of times the condition is evaluated and
`none` means the bound was reached.  `pos` never exceeds the size of the string, so
`pos += 2` does not wrap. -/
def escape_loop : Nat → String → Nat → Option String
  | 0, _, _ => none
  | fuel + 1, escaped_text, pos =>
      match str_find_char_from escaped_text '"' pos with
      | some found => escape_loop fuel (replace escaped_text found 1 "\\\"") (found + 2)
      | none => some escaped_text

/-- The description of the escaped text: each double quote becomes a backslash and
a double quote, every other character is kept. -/
def escape_spec : List Char → List Char
  | [] => []
  | c :: cs => if c = '"' then '\\' :: '"' :: escape_spec cs else c :: escape_spec cs

/-- The line `main` writes for one locale and its escaped text. -/
def emit_locale_line (locale escaped_text : String) : String :=
  "            \x7b\"" ++ locale ++ "\", \"" ++ escaped_text ++ "\"\x7d,\n"

/-- The characters an ordinary C++ string literal denotes, given the characters
written between its quotes: plain characters stand for themselves and a simple
escape sequence for its character.  `none` for a body that is not well formed (a
bare double quote or line break, a backslash with nothing after it) or that uses a
numeric or universal escape, which are left out here. -/
def literal_value : List Char → Option (List Char)
  | [] => some []
  | '\\' :: c :: rest =>
      let escaped : Option Char :=
        if c = 'n' then some '\n'
        else if c = 't' then some '\t'
        else if c = 'r' then some '\r'
        else if c = '"' then some '"'
        else if c = '\\' then some '\\'
        else if c = '?' then some '?'
        else if c = 'a' then some (Char.ofNat 7)
        else if c = 'b' then some (Char.ofNat 8)
        else if c = 'f' then some (Char.ofNat 12)
        else if c = 'v' then some (Char.ofNat 11)
        else if c = (Char.ofNat 39) then some (Char.ofNat 39)
        else none
      match escaped, literal_value rest with
      | some e, some value => some (e :: value)
      | _, _ => none
  | c :: rest =>
      if c = '\\' ∨ c = '"' ∨ c = '\n' then none
      else (literal_value rest).map (fun value => c :: value)

/-! ## Lemmas on the string operations -/

theorem find_from_ge (pat : List Char) (s : List Char) (i j : Nat)
    (h : find_from pat s i = some j) : i ≤ j := by
  induction s generalizing i with
  | nil =>
      unfold find_from at h
      split at h
      · simp at h; omega
      · simp at h
  | cons c cs ih =>
      unfold find_from at h
      split at h
      · simp at h; omega
      · have := ih (i + 1) h
        omega

theorem find_from_zero_iff (pat s : List Char) :
    find_from pat s 0 = some 0 ↔ pat <+: s := by
  cases s with
  | nil => simp [find_from]
  | cons c cs =>
      unfold find_from
      by_cases hp : pat.isPrefixOf (c :: cs) = true
      · rw [if_pos hp]
        simpa using List.isPrefixOf_iff_prefix.mp hp
      · rw [if_neg hp]
        constructor
        · intro h
          have := find_from_ge pat cs 1 0 h
          omega
        · intro h
          exact absurd (List.isPrefixOf_iff_prefix.mpr h) hp

theorem str_find_zero_iff (s pat : String) :
    str_find s pat = some 0 ↔ pat.data <+: s.data := by
  unfold str_find
  exact find_from_zero_iff pat.data s.data

theorem find_from_char_append (c : Char) (pre post : List Char) (i : Nat)
    (h : c ∉ pre) : find_from [c] (pre ++ c :: post) i = some (i + pre.length) := by
  induction pre generalizing i with
  | nil => simp [find_from, List.isPrefixOf]
  | cons d ds ih =>
      have hd : c ≠ d := fun e => h (by simp [e])
      have hds : c ∉ ds := fun e => h (by simp [e])
      simp only [List.cons_append, find_from, List.isPrefixOf]
      simp [hd, ih (i + 1) hds]
      omega

theorem find_from_char_split (c : Char) (s : List Char) (i j : Nat)
    (h : find_from [c] s i = some j) :
    ∃ pre post, s = pre ++ c :: post ∧ c ∉ pre ∧ j = i + pre.length := by
  induction s generalizing i with
  | nil => simp [find_from] at h
  | cons d ds ih =>
      by_cases hd : c = d
      · subst hd
        simp [find_from, List.isPrefixOf] at h
        exact ⟨[], ds, by simp, by simp, by simp [h]⟩
      · simp [find_from, List.isPrefixOf, hd] at h
        obtain ⟨pre, post, hs, hn, hj⟩ := ih (i + 1) h
        refine ⟨d :: pre, post, by simp [hs], ?_, ?_⟩
        · simp [hd, hn]
        · simp [hj]; omega

/-- The base language of a locale `base ++ "-" ++ rest` whose `base` has no dash. -/
theorem base_fallback_of_dash (base rest : String) (locale_map : umap String)
    (hb : '-' ∉ base.data) :
    base_fallback (base ++ "-" ++ rest) locale_map = base_scan base locale_map := by
  unfold base_fallback str_find_char
  have hdata : (base ++ "-" ++ rest).data = base.data ++ '-' :: rest.data := by
    simp [String.data_append]
  rw [hdata, find_from_char_append '-' base.data rest.data 0 hb]
  simp only [substr, hdata]
  simp

/-- A locale has one base language only. -/
theorem base_unique (s base rest : String) (h : s = base ++ "-" ++ rest)
    (hb : '-' ∉ base.data) (j : Nat) (hj : str_find_char s '-' = some j) :
    base = substr s 0 j := by
  have hdata : s.data = base.data ++ '-' :: rest.data := by
    rw [h]; simp [String.data_append]
  unfold str_find_char at hj
  rw [hdata, find_from_char_append '-' base.data rest.data 0 hb] at hj
  simp only [Option.some.injEq] at hj
  simp [substr, hdata, ← hj]

/-- When the current locale has a dash, it splits at its first dash. -/
theorem str_find_char_split (s : String) (c : Char) (j : Nat)
    (h : str_find_char s c = some j) :
    ∃ base rest : String, s = base ++ String.singleton c ++ rest ∧ c ∉ base.data ∧
      substr s 0 j = base := by
  unfold str_find_char at h
  obtain ⟨pre, post, hs, hn, hj⟩ := find_from_char_split c s.data 0 j h
  refine ⟨String.mk pre, String.mk post, ?_, hn, ?_⟩
  · apply String.ext
    simp [String.data_append, hs, String.singleton]
  · simp [substr, hs, hj]

/-! ## Lemmas on the container operations -/

theorem umap.find_none_iff {V : Type} (m : umap V) (key : String) :
    m.find key = none ↔ key ∉ m.map Prod.fst := by
  unfold umap.find
  rw [List.find?_eq_none]
  simp only [List.mem_map, not_exists, not_and]
  constructor
  · intro h e he hk
    exact h e he (by simp [hk])
  · intro h e he hk
    exact h e he (by simpa using hk)

theorem umap.find_some {V : Type} (m : umap V) (key : String) (e : String × V)
    (h : m.find key = some e) : e ∈ m ∧ e.1 = key := by
  unfold umap.find at h
  exact ⟨List.mem_of_find?_eq_some h, by simpa using List.find?_some h⟩

theorem umap.find_of_mem {V : Type} (m : umap V) (key : String) (v : V)
    (hwf : m.wf) (h : (key, v) ∈ m) : m.find key = some (key, v) := by
  induction m with
  | nil => simp at h
  | cons e rest ih =>
      unfold umap.wf at hwf
      simp only [List.map_cons, List.nodup_cons] at hwf
      rcases List.mem_cons.mp h with h1 | h1
      · subst h1
        simp [umap.find]
      · have hne : e.1 ≠ key := by
          intro he
          apply hwf.1
          rw [he]
          exact List.mem_map_of_mem Prod.fst h1
        have := ih hwf.2 h1
        unfold umap.find at this ⊢
        simp [List.find?_cons, hne, this]

theorem base_scan_first (b code s : String) (pre post : umap String)
    (hpre : ∀ e ∈ pre, ¬ b.data <+: e.1.data) (hc : b.data <+: code.data) :
    base_scan b (pre ++ (code, s) :: post) = some s := by
  induction pre with
  | nil => simp [base_scan, (str_find_zero_iff code b).mpr hc]
  | cons e rest ih =>
      obtain ⟨k, v⟩ := e
      have h1 : ¬ str_find k b = some 0 := fun h =>
        hpre (k, v) (by simp) ((str_find_zero_iff k b).mp h)
      have h2 := ih (fun e he => hpre e (by simp [he]))
      simp [base_scan, h1, h2]

theorem base_scan_none (b : String) (m : umap String)
    (h : ∀ e ∈ m, ¬ b.data <+: e.1.data) : base_scan b m = none := by
  induction m with
  | nil => simp [base_scan]
  | cons e rest ih =>
      obtain ⟨k, v⟩ := e
      have h1 : ¬ str_find k b = some 0 := fun h' =>
        h (k, v) (by simp) ((str_find_zero_iff k b).mp h')
      have h2 := ih (fun e he => h e (by simp [he]))
      simp [base_scan, h1, h2]

/-! ## The lookup policy of `translate(identifier)` -/

/-- C1: for every store, every current locale and every identifier that is not a key
of the store, `translate(identifier)` returns no value. -/
theorem translate_absent_identifier (t : translator) (identifier : String)
    (h : identifier ∉ t.translations_.map Prod.fst) :
    translate t identifier = none := by
  unfold translate
  rw [(umap.find_none_iff t.translations_ identifier).mpr h]

theorem translate_absent_identifier_witness :
    "nonexistent.key" ∉
        (([("home.title", [("en-US", "Home"), ("fr-FR", "Accueil")])] : store).map Prod.fst) ∧
      translate ⟨"en-US", [("home.title", [("en-US", "Home"), ("fr-FR", "Accueil")])]⟩
        "nonexistent.key" = none :=
  ⟨by decide, translate_absent_identifier _ _ (by decide)⟩

/-- C2: when the locale-map of a stored identifier has a key equal to the current
locale, `translate(identifier)` returns the string stored under that key, whatever
other entries the locale-map holds and wherever they stand in iteration order. -/
theorem translate_exact_locale (t : translator) (identifier : String)
    (locale_map : umap String) (s : String)
    (hstore : t.translations_.wf) (hid : (identifier, locale_map) ∈ t.translations_)
    (hmap : locale_map.wf) (hloc : (t.current_locale_, s) ∈ locale_map) :
    translate t identifier = some s := by
  unfold translate
  rw [umap.find_of_mem t.translations_ identifier locale_map hstore hid]
  simp only
  rw [umap.find_of_mem locale_map t.current_locale_ s hmap hloc]

theorem translate_exact_locale_witness :
    translate ⟨"en-US", [("home.title", [("en", "Base"), ("en-GB", "Homepage"),
      ("en-US", "Home"), ("fr-FR", "Accueil")])]⟩ "home.title" = some "Home" :=
  translate_exact_locale _ "home.title"
    [("en", "Base"), ("en-GB", "Homepage"), ("en-US", "Home"), ("fr-FR", "Accueil")] "Home"
    (by decide) (by decide) (by decide) (by decide)

/-- C3: for a stored identifier whose locale-map has no key equal to the current
locale, when the current locale is `base ++ "-" ++ rest` with no dash in `base` and
some stored code has `base` as a raw string prefix, `translate(identifier)` returns
the string of the first such code in iteration order: the entries `before` it lack
the prefix, the entries `after` it are arbitrary, and the code need not be a
language tag of `base`. -/
theorem translate_base_language (t : translator) (identifier : String)
    (base rest code s : String) (before after : umap String)
    (hstore : t.translations_.wf)
    (hid : (identifier, before ++ (code, s) :: after) ∈ t.translations_)
    (hexact : t.current_locale_ ∉ (before ++ (code, s) :: after).map Prod.fst)
    (hcur : t.current_locale_ = base ++ "-" ++ rest) (hbase : '-' ∉ base.data)
    (hbefore : ∀ e ∈ before, ¬ base.data <+: e.1.data)
    (hcode : base.data <+: code.data) :
    translate t identifier = some s := by
  unfold translate
  rw [umap.find_of_mem t.translations_ identifier _ hstore hid]
  simp only
  rw [(umap.find_none_iff _ _).mpr hexact, hcur,
    base_fallback_of_dash base rest _ hbase,
    base_scan_first base code s before after hbefore hcode]

theorem translate_base_language_witness :
    translate ⟨"en-US", [("test.key", [("en", "English")])]⟩ "test.key" = some "English" ∧
      translate ⟨"en-US", [("test.key", [("fr-FR", "Français"), ("english", "E"),
        ("en-GB", "B")])]⟩ "test.key" = some "E" :=
  ⟨translate_base_language _ "test.key" "en" "US" "en" "English" [] []
      (by decide) (by decide) (by decide) (by decide) (by decide) (by decide) (by decide),
   translate_base_language _ "test.key" "en" "US" "english" "E"
      [("fr-FR", "Français")] [("en-GB", "B")]
      (by decide) (by decide) (by decide) (by decide) (by decide) (by decide) (by decide)⟩

/-- C4: for a stored identifier whose locale-map is non-empty (first entry
`(code, s)`), has no key equal to the current locale and, whenever the current
locale is `base ++ "-" ++ rest` with no dash in `base`, no key starting with
`base`, `translate(identifier)` returns `s`, the string of the first entry. -/
theorem translate_first_entry (t : translator) (identifier : String)
    (code s : String) (others : umap String)
    (hstore : t.translations_.wf)
    (hid : (identifier, (code, s) :: others) ∈ t.translations_)
    (hexact : t.current_locale_ ∉ ((code, s) :: others).map Prod.fst)
    (hbase : ∀ base rest : String, t.current_locale_ = base ++ "-" ++ rest →
      '-' ∉ base.data → ∀ e ∈ (code, s) :: others, ¬ base.data <+: e.1.data) :
    translate t identifier = some s := by
  unfold translate
  rw [umap.find_of_mem t.translations_ identifier _ hstore hid]
  simp only
  rw [(umap.find_none_iff _ _).mpr hexact]
  have hfb : base_fallback t.current_locale_ ((code, s) :: others) = none := by
    unfold base_fallback
    cases hd : str_find_char t.current_locale_ '-' with
    | none => rfl
    | some dashPos =>
        obtain ⟨base, rest, hsplit, hno, hsub⟩ :=
          str_find_char_split t.current_locale_ '-' dashPos hd
        simp only
        rw [hsub]
        exact base_scan_none base _ (hbase base rest hsplit hno)
  rw [hfb]
  rfl

theorem translate_first_entry_witness :
    translate ⟨"de-DE", [("test.key", [("fr-FR", "Français")])]⟩ "test.key" =
      some "Français" :=
  translate_first_entry _ "test.key" "fr-FR" "Français" []
    (by decide) (by decide) (by decide)
    (by
      intro base rest hcur hno e he hpre
      have hb : base = "de" := base_unique "de-DE" base rest hcur hno 2 (by decide)
      subst hb
      revert e
      decide)

/-! ## The explicit-locale overload -/

/-- What `translate(identifier, locale, _)` returns, over a well-formed store. -/
theorem translate_locale_some_iff (t : translator) (identifier Q : String) (flag : Bool)
    (s : String) (hstore : t.translations_.wf) (hmaps : ∀ e ∈ t.translations_, e.2.wf) :
    translate_locale t identifier Q flag = some s ↔
      ∃ locale_map, (identifier, locale_map) ∈ t.translations_ ∧ (Q, s) ∈ locale_map := by
  constructor
  · intro h
    unfold translate_locale at h
    cases h1 : t.translations_.find identifier with
    | none => rw [h1] at h; simp at h
    | some it =>
        rw [h1] at h
        simp only at h
        cases h2 : it.2.find Q with
        | none => rw [h2] at h; simp at h
        | some localeIt =>
            rw [h2] at h
            simp only [Option.some.injEq] at h
            obtain ⟨hm1, hk1⟩ := umap.find_some _ _ _ h1
            obtain ⟨hm2, hk2⟩ := umap.find_some _ _ _ h2
            refine ⟨it.2, ?_, ?_⟩
            · rw [← hk1]; exact hm1
            · rw [← hk2, ← h]; exact hm2
  · rintro ⟨locale_map, hid, hq⟩
    unfold translate_locale
    rw [umap.find_of_mem _ _ _ hstore hid]
    simp only
    rw [umap.find_of_mem _ _ _ (hmaps _ hid) hq]

/-- C5: `translate(identifier, Q, _)` returns `s` exactly when the identifier is in
the store and its locale-map holds `s` under the key `Q`; it returns a value
exactly when such an entry exists; its result depends neither on the current
locale nor on the flag. -/
theorem translate_locale_exact_only (t : translator) (identifier Q : String) (flag : Bool)
    (hstore : t.translations_.wf) (hmaps : ∀ e ∈ t.translations_, e.2.wf) :
    (∀ s, translate_locale t identifier Q flag = some s ↔
        ∃ locale_map, (identifier, locale_map) ∈ t.translations_ ∧ (Q, s) ∈ locale_map) ∧
      ((translate_locale t identifier Q flag).isSome = true ↔
        ∃ locale_map, (identifier, locale_map) ∈ t.translations_ ∧
          Q ∈ locale_map.map Prod.fst) ∧
      (∀ (locale : String) (flag2 : Bool),
        translate_locale (set_locale t locale) identifier Q flag2 =
          translate_locale t identifier Q flag) := by
  have key := fun s => translate_locale_some_iff t identifier Q flag s hstore hmaps
  refine ⟨key, ?_, ?_⟩
  · rw [Option.isSome_iff_exists]
    constructor
    · rintro ⟨s, hs⟩
      obtain ⟨locale_map, hid, hq⟩ := (key s).mp hs
      exact ⟨locale_map, hid, List.mem_map_of_mem Prod.fst hq⟩
    · rintro ⟨locale_map, hid, hq⟩
      obtain ⟨e, he, hk⟩ := List.mem_map.mp hq
      refine ⟨e.2, (key e.2).mpr ⟨locale_map, hid, ?_⟩⟩
      rw [← hk]
      exact he
  · intro locale flag2
    rfl

theorem translate_locale_exact_only_witness :
    translate_locale ⟨"fr-FR", [("k", [("fr-FR", "X")])]⟩ "k" "fr-FR" true = some "X" ∧
      ¬ (translate_locale ⟨"fr-FR", [("k", [("fr-FR", "X")])]⟩ "k" "fr" true).isSome = true :=
  ⟨((translate_locale_exact_only ⟨"fr-FR", [("k", [("fr-FR", "X")])]⟩ "k" "fr-FR" true
      (by decide) (by decide)).1 "X").mpr ⟨[("fr-FR", "X")], by decide, by decide⟩,
   fun h => by
    obtain ⟨locale_map, hid, hq⟩ :=
      (translate_locale_exact_only ⟨"fr-FR", [("k", [("fr-FR", "X")])]⟩ "k" "fr" true
        (by decide) (by decide)).2.1.mp h
    simp only [List.mem_singleton, Prod.mk.injEq] at hid
    rw [hid.2] at hq
    revert hq
    decide⟩

/-! ## Loading -/

/-- C6, as the code behaves: when the library rejects the input as not being JSON,
`load_from_string` returns `false` and the translator, its store included, is the
one held before the call. -/
theorem load_from_string_invalid_unchanged {J : Type} (parse : String → Option J)
    (convert : J → Option store) (t : translator) (json_content : String)
    (h : parse json_content = none) :
    load_from_string parse convert t json_content = (t, false) := by
  unfold load_from_string
  rw [h]

theorem load_from_string_invalid_unchanged_witness :
    load_from_string (fun _ => (none : Option Unit)) (fun _ => none)
        ⟨"en-US", [("home.title", [("en-US", "Home")])]⟩ "not json" =
      (⟨"en-US", [("home.title", [("en-US", "Home")])]⟩, false) :=
  load_from_string_invalid_unchanged _ _ _ _ rfl

/-- C6 as stated fails: a translator holding `home.title` is given the text
`not json`, which the parser rejects; the call returns `false` and the store still
holds `home.title`, so it is not empty. -/
theorem load_from_string_invalid_not_emptied :
    (load_from_string (fun _ => (none : Option Unit)) (fun _ => none)
        ⟨"en-US", [("home.title", [("en-US", "Home")])]⟩ "not json").2 = false ∧
      (load_from_string (fun _ => (none : Option Unit)) (fun _ => none)
        ⟨"en-US", [("home.title", [("en-US", "Home")])]⟩ "not json").1.translations_ ≠ [] := by
  decide

/-- C7: `load_from_string` is a total function to a boolean.  It returns `true`
exactly when the input parses, the parsed document converts to a store, and that
store has at least one identifier; it returns `false` exactly when parsing fails,
the conversion fails, or the resulting store has no identifier. -/
theorem load_from_string_true_iff {J : Type} (parse : String → Option J)
    (convert : J → Option store) (t : translator) (json_content : String) :
    ((load_from_string parse convert t json_content).2 = true ↔
        ∃ j m, parse json_content = some j ∧ convert j = some m ∧ m ≠ []) ∧
      ((load_from_string parse convert t json_content).2 = false ↔
        (parse json_content = none ∨
          ∃ j, parse json_content = some j ∧ (convert j = none ∨ convert j = some []))) := by
  unfold load_from_string
  cases hp : parse json_content with
  | none => simp
  | some j =>
      cases hc : convert j with
      | none => simp [hc]
      | some m =>
          cases m with
          | nil => simp [hc, umap.empty]
          | cons e rest => simp [hc, umap.empty]

/-- C8: when the input parses into the mapping `m`, the store after
`load_from_string` is exactly `m`, whatever the store was before: every
identifier/locale/string triple of `m` is returned by the explicit-locale lookup,
and that lookup returns nothing that is not a triple of `m`. -/
theorem load_from_string_replaces {J : Type} (parse : String → Option J)
    (convert : J → Option store) (t : translator) (json_content : String)
    (j : J) (m : store)
    (hp : parse json_content = some j) (hc : convert j = some m)
    (hwf : m.wf) (hmaps : ∀ e ∈ m, e.2.wf) :
    (load_from_string parse convert t json_content).1.translations_ = m ∧
      (∀ identifier locale_map locale s flag,
        (identifier, locale_map) ∈ m → (locale, s) ∈ locale_map →
          translate_locale (load_from_string parse convert t json_content).1
            identifier locale flag = some s) ∧
      (∀ identifier locale s flag,
        translate_locale (load_from_string parse convert t json_content).1
            identifier locale flag = some s →
          ∃ locale_map, (identifier, locale_map) ∈ m ∧ (locale, s) ∈ locale_map) := by
  have hload : load_from_string parse convert t json_content =
      ({ t with translations_ := m }, !m.empty) := by
    unfold load_from_string
    rw [hp]
    simp only
    rw [hc]
  rw [hload]
  refine ⟨rfl, ?_, ?_⟩
  · intro identifier locale_map locale s flag hid hloc
    exact (translate_locale_some_iff _ identifier locale flag s hwf hmaps).mpr
      ⟨locale_map, hid, hloc⟩
  · intro identifier locale s flag h
    exact (translate_locale_some_iff _ identifier locale flag s hwf hmaps).mp h

theorem load_from_string_replaces_witness :
    (load_from_string (fun _ => some ()) (fun _ => some [("test.key", [("en", "English")])])
        ⟨"en-US", [("home.title", [("en-US", "Home")])]⟩
        "\x7b\"test.key\": \x7b\"en\": \"English\"\x7d\x7d").1.translations_ =
      [("test.key", [("en", "English")])] ∧
    translate_locale
        (load_from_string (fun _ => some ()) (fun _ => some [("test.key", [("en", "English")])])
          ⟨"en-US", [("home.title", [("en-US", "Home")])]⟩
          "\x7b\"test.key\": \x7b\"en\": \"English\"\x7d\x7d").1
        "test.key" "en" true = some "English" ∧
    translate_locale
        (load_from_string (fun _ => some ()) (fun _ => some [("test.key", [("en", "English")])])
          ⟨"en-US", [("home.title", [("en-US", "Home")])]⟩
          "\x7b\"test.key\": \x7b\"en\": \"English\"\x7d\x7d").1
        "home.title" "en-US" true = none :=
  have h := load_from_string_replaces (fun _ => some ())
    (fun _ => some [("test.key", [("en", "English")])])
    ⟨"en-US", [("home.title", [("en-US", "Home")])]⟩
    "\x7b\"test.key\": \x7b\"en\": \"English\"\x7d\x7d" ()
    [("test.key", [("en", "English")])] rfl rfl (by decide) (by decide)
  ⟨h.1, h.2.1 "test.key" [("en", "English")] "en" "English" true (by decide) (by decide),
    by decide⟩

/-! ## The fallback overload and `has_translation` -/

/-- C9: `translate(identifier, fallback)` returns the value `translate(identifier)`
holds when it holds one and `fallback` otherwise; returning the fallback argument,
whatever that argument is, happens exactly when `translate(identifier)` is empty. -/
theorem translate_fallback_iff_empty (t : translator) (identifier fallback : String) :
    (translate_fallback t identifier fallback =
        match translate t identifier with
        | some value => value
        | none => fallback) ∧
      (translate t identifier = none ↔
        ∀ other : String, translate_fallback t identifier other = other) := by
  unfold translate_fallback
  cases h : translate t identifier with
  | none => simp
  | some value =>
      simp only [Option.getD_some, true_and]
      constructor
      · intro h2
        exact absurd h2 (by simp)
      · intro h2
        exfalso
        have h3 := congrArg String.length (h2 (value ++ "x"))
        simp only [String.length_append] at h3
        have h4 : ("x" : String).length = 1 := rfl
        omega

/-- C10: `has_translation(identifier)` is true if and only if
`translate(identifier)`, with both of its fallbacks, yields a value. -/
theorem has_translation_iff_translate (t : translator) (identifier : String) :
    (has_translation t identifier = true ↔ ∃ s, translate t identifier = some s) ∧
      (has_translation t identifier = false ↔ translate t identifier = none) := by
  unfold has_translation
  cases translate t identifier <;> simp

/-- C11, the code at an input where the doc comment of `has_translation` and the
code part: the locale-map holds no string under the current locale `de-DE`, the
exact lookup for `de-DE` is empty, and `has_translation` answers `true`. -/
theorem has_translation_without_current_locale :
    (umap.find [("fr-FR", "Français")] "de-DE" = none) ∧
      translate_locale ⟨"de-DE", [("test.key", [("fr-FR", "Français")])]⟩
        "test.key" "de-DE" true = none ∧
      has_translation ⟨"de-DE", [("test.key", [("fr-FR", "Français")])]⟩ "test.key" = true := by
  decide

/-! ## What `translate(identifier)` can return -/

theorem base_scan_some_mem (b s : String) (m : umap String)
    (h : base_scan b m = some s) : ∃ c, (c, s) ∈ m := by
  induction m with
  | nil => simp [base_scan] at h
  | cons e rest ih =>
      obtain ⟨k, v⟩ := e
      unfold base_scan at h
      split at h
      · simp only [Option.some.injEq] at h
        exact ⟨k, by simp [h]⟩
      · obtain ⟨c, hc⟩ := ih h
        exact ⟨c, by simp [hc]⟩

theorem base_fallback_some_mem (current s : String) (m : umap String)
    (h : base_fallback current m = some s) : ∃ c, (c, s) ∈ m := by
  unfold base_fallback at h
  split at h
  · exact base_scan_some_mem _ s m h
  · simp at h

/-- Once the identifier is found, `translate` is empty only for an empty locale-map
and returns only values of that locale-map. -/
theorem translate_of_find (t : translator) (identifier : String) (it : String × umap String)
    (h : t.translations_.find identifier = some it) :
    (translate t identifier = none ↔ it.2 = []) ∧
      (∀ s, translate t identifier = some s → ∃ c, (c, s) ∈ it.2) := by
  unfold translate
  rw [h]
  simp only
  cases hf : it.2.find t.current_locale_ with
  | some e =>
      have he := (umap.find_some _ _ _ hf).1
      simp only
      refine ⟨⟨fun h0 => by simp at h0, fun h0 => ?_⟩, ?_⟩
      · rw [h0] at he; simp at he
      · intro s hs
        simp only [Option.some.injEq] at hs
        exact ⟨e.1, by rw [← hs]; exact he⟩
  | none =>
      simp only
      cases hb : base_fallback t.current_locale_ it.2 with
      | some v =>
          obtain ⟨c, hc⟩ := base_fallback_some_mem _ _ _ hb
          simp only
          refine ⟨⟨fun h0 => by simp at h0, fun h0 => ?_⟩, ?_⟩
          · rw [h0] at hc; simp at hc
          · intro s hs
            simp only [Option.some.injEq] at hs
            exact ⟨c, by rw [← hs]; exact hc⟩
      | none =>
          simp only
          cases hm : it.2 with
          | nil => simp [umap.empty, umap.begin]
          | cons e rest =>
              simp only [umap.empty, umap.begin, List.isEmpty_cons, Bool.not_false,
                if_true, List.head?_cons]
              refine ⟨⟨fun h0 => by simp at h0, fun h0 => by simp at h0⟩, ?_⟩
              intro s hs
              simp only [Option.some.injEq] at hs
              exact ⟨e.1, by rw [← hs]; simp⟩

/-- C19: over a store with distinct keys, `translate(identifier)` is empty if and
only if the identifier is absent from the store or its locale-map has no entries;
and `has_translation(identifier)` answers the same for every two current locales. -/
theorem translate_empty_iff (t : translator) (identifier : String)
    (hstore : t.translations_.wf) :
    (translate t identifier = none ↔
        identifier ∉ t.translations_.map Prod.fst ∨ (identifier, []) ∈ t.translations_) ∧
      (∀ locale1 locale2 : String,
        has_translation (set_locale t locale1) identifier =
          has_translation (set_locale t locale2) identifier) := by
  constructor
  · cases hf : t.translations_.find identifier with
    | none =>
        have habs := (umap.find_none_iff _ _).mp hf
        unfold translate
        rw [hf]
        simp [habs]
    | some it =>
        obtain ⟨hmem, hkey⟩ := umap.find_some _ _ _ hf
        rw [(translate_of_find t identifier it hf).1]
        constructor
        · intro h0
          right
          have : it = (identifier, []) := by
            rw [← hkey, ← h0]
          rw [← this]
          exact hmem
        · rintro (h0 | h0)
          · exact absurd (List.mem_map.mpr ⟨it, hmem, hkey⟩) h0
          · have h1 := umap.find_of_mem _ _ _ hstore h0
            rw [hf] at h1
            simp only [Option.some.injEq] at h1
            rw [h1]
  · intro locale1 locale2
    unfold has_translation
    cases hf : t.translations_.find identifier with
    | none =>
        have h1 : translate (set_locale t locale1) identifier = none := by
          unfold translate set_locale
          simp only
          rw [hf]
        have h2 : translate (set_locale t locale2) identifier = none := by
          unfold translate set_locale
          simp only
          rw [hf]
        rw [h1, h2]
    | some it =>
        have h1 := (translate_of_find (set_locale t locale1) identifier it hf).1
        have h2 := (translate_of_find (set_locale t locale2) identifier it hf).1
        have h3 : translate (set_locale t locale1) identifier = none ↔
            translate (set_locale t locale2) identifier = none := h1.trans h2.symm
        cases ha : translate (set_locale t locale1) identifier <;>
          cases hb : translate (set_locale t locale2) identifier <;>
          simp_all

theorem translate_empty_iff_witness :
    (translate ⟨"de-DE", [("empty.key", []), ("test.key", [("fr-FR", "Français")])]⟩
        "empty.key" = none) ∧
      has_translation (set_locale ⟨"de-DE", [("empty.key", []),
        ("test.key", [("fr-FR", "Français")])]⟩ "fr-FR") "test.key" =
      has_translation (set_locale ⟨"de-DE", [("empty.key", []),
        ("test.key", [("fr-FR", "Français")])]⟩ "xx") "test.key" :=
  have h := translate_empty_iff
    ⟨"de-DE", [("empty.key", []), ("test.key", [("fr-FR", "Français")])]⟩
  ⟨(h "empty.key" (by decide)).1.mpr (Or.inr (by decide)),
    (h "test.key" (by decide)).2 "fr-FR" "xx"⟩

/-- C20: over a store with distinct keys, a string returned by
`translate(identifier)` is the value of an entry of the locale-map stored under
that identifier, and that locale-map is the only one the identifier has. -/
theorem translate_returns_own_value (t : translator) (identifier s : String)
    (hstore : t.translations_.wf) (h : translate t identifier = some s) :
    ∃ locale_map, (identifier, locale_map) ∈ t.translations_ ∧
      (∃ code, (code, s) ∈ locale_map) ∧
      ∀ other, (identifier, other) ∈ t.translations_ → other = locale_map := by
  cases hf : t.translations_.find identifier with
  | none =>
      unfold translate at h
      rw [hf] at h
      simp at h
  | some it =>
      obtain ⟨hmem, hkey⟩ := umap.find_some _ _ _ hf
      refine ⟨it.2, ?_, (translate_of_find t identifier it hf).2 s h, ?_⟩
      · rw [← hkey]
        exact hmem
      · intro other ho
        have h1 := umap.find_of_mem _ _ _ hstore ho
        rw [hf] at h1
        simp only [Option.some.injEq] at h1
        rw [h1]

theorem translate_returns_own_value_witness :
    ∃ locale_map, (("test.key", locale_map) ∈
        ([("other.key", [("de-DE", "Anders")]), ("test.key", [("fr-FR", "Français")])] : store)) ∧
      (∃ code, (code, "Français") ∈ locale_map) ∧
      ∀ other, (("test.key", other) ∈
        ([("other.key", [("de-DE", "Anders")]), ("test.key", [("fr-FR", "Français")])] : store)) →
        other = locale_map :=
  translate_returns_own_value
    ⟨"de-DE", [("other.key", [("de-DE", "Anders")]), ("test.key", [("fr-FR", "Français")])]⟩
    "test.key" "Français" (by decide) (by decide)

/-! ## The current locale and the store -/

/-- C16: `get_locale()` after `set_locale(L)` returns `L` itself, for every string
`L`, and after any sequence of `set_locale` calls it returns the argument of the
last one. -/
theorem get_locale_set_locale (t : translator) (L : String) (earlier : List String) :
    get_locale (set_locale t L) = L ∧
      get_locale ((earlier ++ [L]).foldl set_locale t) = L := by
  constructor
  · rfl
  · rw [List.foldl_append]
    rfl

/-- C18: `set_locale` leaves the store as it was, so the explicit-locale lookup and
`get_available_locales` answer as before; `load_from_string`, whatever it returns,
leaves `get_locale()` as it was. -/
theorem locale_and_store_independent {J : Type} (t : translator) (L : String)
    (parse : String → Option J) (convert : J → Option store) (json_content : String)
    (layout : umap Bool → umap Bool) :
    (set_locale t L).translations_ = t.translations_ ∧
      (∀ identifier Q flag,
        translate_locale (set_locale t L) identifier Q flag =
          translate_locale t identifier Q flag) ∧
      get_available_locales layout (set_locale t L) = get_available_locales layout t ∧
      get_locale (load_from_string parse convert t json_content).1 = get_locale t := by
  refine ⟨rfl, fun _ _ _ => rfl, rfl, ?_⟩
  unfold load_from_string
  cases parse json_content with
  | none => rfl
  | some j =>
      simp only
      cases hc : convert j with
      | none => rfl
      | some m => rfl

/-! ## `get_available_locales` -/

theorem umap.assign_keys {V : Type} (layout : umap V → umap V)
    (hlayout : ∀ m, (layout m).Perm m) (m : umap V) (key : String) (value : V)
    (hwf : m.wf) :
    (umap.assign layout m key value).wf ∧
      ∀ c, c ∈ (umap.assign layout m key value).map Prod.fst ↔
        c = key ∨ c ∈ m.map Prod.fst := by
  unfold umap.assign
  cases hf : m.find key with
  | some e =>
      obtain ⟨hmem, hkey⟩ := umap.find_some _ _ _ hf
      have hkeys : (m.map (fun e => if e.1 == key then (e.1, value) else e)).map Prod.fst =
          m.map Prod.fst := by
        rw [List.map_map]
        apply List.map_congr_left
        intro a _
        simp only [Function.comp]
        split <;> rfl
      simp only
      unfold umap.wf
      rw [hkeys]
      refine ⟨hwf, fun c => ⟨fun h => Or.inr h, fun h => ?_⟩⟩
      rcases h with h | h
      · rw [h, ← hkey]
        exact List.mem_map_of_mem Prod.fst hmem
      · exact h
  | none =>
      have habs := (umap.find_none_iff _ _).mp hf
      have hperm : ((layout ((key, value) :: m)).map Prod.fst).Perm (key :: m.map Prod.fst) := by
        have := (hlayout ((key, value) :: m)).map Prod.fst
        simpa using this
      simp only
      unfold umap.wf
      refine ⟨?_, fun c => ?_⟩
      · rw [hperm.nodup_iff]
        exact List.nodup_cons.mpr ⟨habs, hwf⟩
      · rw [hperm.mem_iff]
        simp

/-- The inner range-for of `get_available_locales`. -/
theorem locale_fold_keys (layout : umap Bool → umap Bool)
    (hlayout : ∀ m, (layout m).Perm m) (locale_map : umap String) (acc : umap Bool)
    (hwf : acc.wf) :
    (locale_map.foldl (fun acc2 le => umap.assign layout acc2 le.1 true) acc).wf ∧
      ∀ c, c ∈ (locale_map.foldl
          (fun acc2 le => umap.assign layout acc2 le.1 true) acc).map Prod.fst ↔
        c ∈ acc.map Prod.fst ∨ c ∈ locale_map.map Prod.fst := by
  induction locale_map generalizing acc with
  | nil => simp [hwf]
  | cons le rest ih =>
      obtain ⟨h1, h2⟩ := umap.assign_keys layout hlayout acc le.1 true hwf
      obtain ⟨h3, h4⟩ := ih (umap.assign layout acc le.1 true) h1
      simp only [List.foldl_cons]
      refine ⟨h3, fun c => ?_⟩
      rw [h4 c, h2 c]
      simp only [List.map_cons, List.mem_cons]
      tauto

/-- The outer range-for of `get_available_locales`. -/
theorem store_fold_keys (layout : umap Bool → umap Bool)
    (hlayout : ∀ m, (layout m).Perm m) (st : store) (acc : umap Bool) (hwf : acc.wf) :
    (st.foldl (fun acc entry =>
        entry.2.foldl (fun acc2 le => umap.assign layout acc2 le.1 true) acc) acc).wf ∧
      ∀ c, c ∈ (st.foldl (fun acc entry =>
          entry.2.foldl (fun acc2 le => umap.assign layout acc2 le.1 true) acc)
            acc).map Prod.fst ↔
        c ∈ acc.map Prod.fst ∨ ∃ e ∈ st, c ∈ e.2.map Prod.fst := by
  induction st generalizing acc with
  | nil => simp [hwf]
  | cons entry rest ih =>
      obtain ⟨h1, h2⟩ := locale_fold_keys layout hlayout entry.2 acc hwf
      obtain ⟨h3, h4⟩ := ih _ h1
      simp only [List.foldl_cons]
      refine ⟨h3, fun c => ?_⟩
      rw [h4 c, h2 c]
      simp only [List.mem_cons, exists_eq_or_imp]
      tauto

/-- C12: whatever order the locale set keeps its entries in, the list
`get_available_locales` returns has no repeated element, and a code is in it
exactly when it is a key of the locale-map of some identifier of the store. -/
theorem get_available_locales_union (layout : umap Bool → umap Bool)
    (hlayout : ∀ m, (layout m).Perm m) (t : translator) :
    (get_available_locales layout t).Nodup ∧
      ∀ c, c ∈ get_available_locales layout t ↔
        ∃ e ∈ t.translations_, c ∈ e.2.map Prod.fst := by
  obtain ⟨h1, h2⟩ := store_fold_keys layout hlayout t.translations_ []
    (by simp [umap.wf])
  unfold get_available_locales
  refine ⟨h1, fun c => ?_⟩
  rw [h2 c]
  simp

theorem get_available_locales_union_witness :
    (get_available_locales id
        ⟨"en-US", [("a", [("en-US", "A"), ("fr-FR", "Ah")]), ("b", [("es-ES", "Be")])]⟩).Nodup ∧
      (get_available_locales id
        ⟨"en-US", [("a", [("en-US", "A"), ("fr-FR", "Ah")]), ("b", [("es-ES", "Be")])]⟩).length
        = 3 ∧
      "en-US" ∈ get_available_locales id
        ⟨"en-US", [("a", [("en-US", "A"), ("fr-FR", "Ah")]), ("b", [("es-ES", "Be")])]⟩ ∧
      "fr-FR" ∈ get_available_locales id
        ⟨"en-US", [("a", [("en-US", "A"), ("fr-FR", "Ah")]), ("b", [("es-ES", "Be")])]⟩ ∧
      "es-ES" ∈ get_available_locales id
        ⟨"en-US", [("a", [("en-US", "A"), ("fr-FR", "Ah")]), ("b", [("es-ES", "Be")])]⟩ :=
  have h := get_available_locales_union id (fun m => List.Perm.refl m)
    ⟨"en-US", [("a", [("en-US", "A"), ("fr-FR", "Ah")]), ("b", [("es-ES", "Be")])]⟩
  ⟨h.1, by decide,
    (h.2 "en-US").mpr ⟨("a", [("en-US", "A"), ("fr-FR", "Ah")]), by decide, by decide⟩,
    (h.2 "fr-FR").mpr ⟨("a", [("en-US", "A"), ("fr-FR", "Ah")]), by decide, by decide⟩,
    (h.2 "es-ES").mpr ⟨("b", [("es-ES", "Be")]), by decide, by decide⟩⟩

/-! ## The escaping loop of the embedding tool -/

theorem find_from_char_none (c : Char) (s : List Char) (i : Nat)
    (h : find_from [c] s i = none) : c ∉ s := by
  induction s generalizing i with
  | nil => simp
  | cons d ds ih =>
      by_cases hd : c = d
      · subst hd
        simp [find_from, List.isPrefixOf] at h
      · simp only [find_from, List.isPrefixOf] at h
        simp [hd] at h
        have := ih (i + 1) h
        simp [hd, this]

theorem escape_spec_of_not_mem (pre rest : List Char) (h : '"' ∉ pre) :
    escape_spec (pre ++ rest) = pre ++ escape_spec rest := by
  induction pre with
  | nil => rfl
  | cons d ds ih =>
      have hd : d ≠ '"' := fun e => h (by simp [e])
      have hds : '"' ∉ ds := fun e => h (by simp [e])
      simp [escape_spec, hd, ih hds]

theorem escape_spec_quote (rest : List Char) :
    escape_spec ('"' :: rest) = '\\' :: '"' :: escape_spec rest := by
  simp [escape_spec]

/-- The loop invariant: the part before `pos` is finished, the part after it is
still to be escaped. -/
theorem escape_loop_from (fuel : Nat) (finished todo : List Char)
    (hfuel : todo.length < fuel) :
    escape_loop fuel (String.mk (finished ++ todo)) finished.length =
      some (String.mk (finished ++ escape_spec todo)) := by
  induction fuel generalizing finished todo with
  | zero => omega
  | succ fuel ih =>
      unfold escape_loop
      have hfind : str_find_char_from (String.mk (finished ++ todo)) '"' finished.length =
          find_from ['"'] todo finished.length := by
        simp [str_find_char_from]
      rw [hfind]
      cases hf : find_from ['"'] todo finished.length with
      | none =>
          have hno := find_from_char_none '"' todo finished.length hf
          have := escape_spec_of_not_mem todo [] hno
          simp only [List.append_nil] at this
          simp only
          rw [this]
          simp [escape_spec]
      | some found =>
          obtain ⟨pre, post, hs, hn, hj⟩ := find_from_char_split '"' todo finished.length found hf
          subst hs
          have hlen : post.length < fuel := by
            simp only [List.length_append, List.length_cons] at hfuel
            omega
          have hrep : replace (String.mk (finished ++ (pre ++ '"' :: post))) found 1 "\\\"" =
              String.mk ((finished ++ pre ++ ['\\', '"']) ++ post) := by
            unfold replace
            have hdata : ("\\\"" : String).data = ['\\', '"'] := rfl
            have ht : List.take found (finished ++ (pre ++ '"' :: post)) = finished ++ pre := by
              rw [← List.append_assoc, hj, ← List.length_append]
              exact List.take_left _ _
            have hd : List.drop (found + min 1
                ((finished ++ (pre ++ '"' :: post)).length - found))
                (finished ++ (pre ++ '"' :: post)) = post := by
              have hm : min 1 ((finished ++ (pre ++ '"' :: post)).length - found) = 1 := by
                simp only [List.length_append, List.length_cons]
                omega
              rw [hm]
              have h1 : finished ++ (pre ++ '"' :: post) = (finished ++ pre ++ ['"']) ++ post := by
                simp
              have h2 : found + 1 = (finished ++ pre ++ ['"']).length := by
                simp only [List.length_append, List.length_cons, List.length_nil]
                omega
              rw [h1, h2]
              exact List.drop_left _ _
            simp only [hdata, ht, hd]
          have hpos : found + 2 = (finished ++ pre ++ ['\\', '"']).length := by
            simp only [List.length_append, List.length_cons, List.length_nil]
            omega
          simp only
          rw [hrep, hpos, ih (finished ++ pre ++ ['\\', '"']) post hlen]
          rw [escape_spec_of_not_mem pre _ hn, escape_spec_quote]
          simp

theorem escape_spec_quote_preceded (text before after : List Char)
    (h : escape_spec text = before ++ '"' :: after) : ∃ kept, before = kept ++ ['\\'] := by
  induction text generalizing before with
  | nil => simp [escape_spec] at h
  | cons c cs ih =>
      by_cases hc : c = '"'
      · subst hc
        rw [escape_spec_quote] at h
        match before, h with
        | [], h => simp at h
        | [b], h =>
            simp only [List.singleton_append, List.cons.injEq] at h
            exact ⟨[], by simp [← h.1]⟩
        | b :: b2 :: rest, h =>
            simp only [List.cons_append, List.cons.injEq] at h
            obtain ⟨kept, hk⟩ := ih rest h.2.2
            exact ⟨b :: b2 :: kept, by simp [hk]⟩
      · simp only [escape_spec, hc, if_false] at h
        match before, h with
        | [], h =>
            simp only [List.nil_append, List.cons.injEq] at h
            exact absurd h.1 hc
        | b :: rest, h =>
            simp only [List.cons_append, List.cons.injEq] at h
            obtain ⟨kept, hk⟩ := ih rest h.2
            exact ⟨b :: kept, by simp [hk]⟩

/-- C14: for every text the escaping loop ends, within one evaluation of its
condition more than the text has characters, and yields the text in which every
double quote is replaced by a backslash and a double quote and every other
character is kept in place; so every double quote of the result stands right after
a backslash. -/
theorem escape_loop_escapes (text : String) (extra : Nat) :
    escape_loop (text.length + 1 + extra) text 0 = some (String.mk (escape_spec text.data)) ∧
      ∀ before after : List Char, escape_spec text.data = before ++ '"' :: after →
        ∃ kept, before = kept ++ ['\\'] := by
  constructor
  · have h := escape_loop_from (text.length + 1 + extra) [] text.data
      (by simp only [String.length]; omega)
    simpa using h
  · intro before after h
    exact escape_spec_quote_preceded text.data before after h

theorem escape_loop_escapes_witness :
    escape_loop ("Say \"Hello\" there".length + 1 + 0) "Say \"Hello\" there" 0 =
        some "Say \\\"Hello\\\" there" ∧
      ∃ kept, "Say \\".data = kept ++ ['\\'] :=
  have h := escape_loop_escapes "Say \"Hello\" there" 0
  ⟨h.1, h.2 "Say \\".data "Hello\\\" there".data (by decide)⟩

/-! ## `detect_system_locale` -/

theorem mem_trimmed_chars (c : Char) :
    c ∈ (" \t\n\r" : String).data ↔ is_trimmed_char c = true := by
  have hd : (" \t\n\r" : String).data = [' ', '\t', '\n', '\r'] := rfl
  rw [hd]
  simp only [is_trimmed_char, List.mem_cons, List.mem_singleton, Bool.or_eq_true,
    decide_eq_true_eq, List.not_mem_nil, or_false]
  tauto

theorem first_not_of_from_none (chars : List Char) (p : Char → Bool)
    (hp : ∀ c, c ∈ chars ↔ p c = true) (s : List Char) (i : Nat)
    (h : first_not_of_from chars s i = none) : s.dropWhile p = [] := by
  induction s generalizing i with
  | nil => rfl
  | cons c cs ih =>
      unfold first_not_of_from at h
      split at h
      · next hc =>
          rw [List.dropWhile_cons_of_pos ((hp c).mp hc)]
          exact ih (i + 1) h
      · simp at h

theorem first_not_of_from_some (chars : List Char) (p : Char → Bool)
    (hp : ∀ c, c ∈ chars ↔ p c = true) (s : List Char) (i j : Nat)
    (h : first_not_of_from chars s i = some j) :
    i ≤ j ∧ j - i ≤ s.length ∧ s.drop (j - i) = s.dropWhile p := by
  induction s generalizing i with
  | nil => simp [first_not_of_from] at h
  | cons c cs ih =>
      unfold first_not_of_from at h
      split at h
      · next hc =>
          obtain ⟨h1, h2, h3⟩ := ih (i + 1) h
          rw [List.dropWhile_cons_of_pos ((hp c).mp hc), ← h3]
          have hji : j - i = (j - (i + 1)) + 1 := by omega
          refine ⟨by omega, ?_, ?_⟩
          · simp only [List.length_cons]; omega
          · rw [hji, List.drop_succ_cons]
      · next hc =>
          simp only [Option.some.injEq] at h
          subst h
          have hpc : ¬ p c = true := fun e => hc ((hp c).mpr e)
          rw [List.dropWhile_cons_of_neg hpc]
          simp

theorem last_not_of_rev_none (chars : List Char) (p : Char → Bool)
    (hp : ∀ c, c ∈ chars ↔ p c = true) (r : List Char)
    (h : last_not_of_rev chars r = none) : r.dropWhile p = [] := by
  induction r with
  | nil => rfl
  | cons c cs ih =>
      unfold last_not_of_rev at h
      split at h
      · next hc =>
          rw [List.dropWhile_cons_of_pos ((hp c).mp hc)]
          exact ih h
      · simp at h

theorem last_not_of_rev_some (chars : List Char) (p : Char → Bool)
    (hp : ∀ c, c ∈ chars ↔ p c = true) (r : List Char) (k : Nat)
    (h : last_not_of_rev chars r = some k) :
    k < r.length ∧ r.dropWhile p = r.drop (r.length - (k + 1)) := by
  induction r with
  | nil => simp [last_not_of_rev] at h
  | cons c cs ih =>
      unfold last_not_of_rev at h
      split at h
      · next hc =>
          obtain ⟨h1, h2⟩ := ih h
          rw [List.dropWhile_cons_of_pos ((hp c).mp hc), h2]
          have hl : (c :: cs).length - (k + 1) = (cs.length - (k + 1)) + 1 := by
            simp only [List.length_cons]; omega
          refine ⟨by simp only [List.length_cons]; omega, ?_⟩
          rw [hl, List.drop_succ_cons]
      · next hc =>
          simp only [Option.some.injEq] at h
          subst h
          have hpc : ¬ p c = true := fun e => hc ((hp c).mpr e)
          rw [List.dropWhile_cons_of_neg hpc]
          simp

/-- The first `erase` of `detect_system_locale` removes the leading whitespace. -/
theorem erase_leading (s : String) (hsize : s.data.length < 2 ^ 64) :
    erase s 0 (size_t_val (find_first_not_of s " \t\n\r")) =
      String.mk (s.data.dropWhile is_trimmed_char) := by
  unfold erase find_first_not_of
  cases hf : first_not_of_from (" \t\n\r" : String).data s.data 0 with
  | none =>
      have h1 := first_not_of_from_none _ is_trimmed_char mem_trimmed_chars s.data 0 hf
      have hm : min npos (s.data.length - 0) = s.data.length := by
        unfold npos; omega
      simp only [size_t_val, hm, h1, List.take_zero, List.nil_append, Nat.zero_add,
        List.drop_length]
  | some j =>
      obtain ⟨_, h2, h3⟩ := first_not_of_from_some _ is_trimmed_char mem_trimmed_chars
        s.data 0 j hf
      simp only [Nat.sub_zero] at h2 h3
      have hm : min j (s.data.length - 0) = j := by omega
      simp only [size_t_val, hm, ← h3]
      simp

/-- The second `erase` of `detect_system_locale` removes the trailing whitespace. -/
theorem erase_trailing (s : String) (hsize : s.data.length < 2 ^ 64) :
    erase s ((size_t_val (find_last_not_of s " \t\n\r") + 1) % 2 ^ 64) npos =
      String.mk (s.data.reverse.dropWhile is_trimmed_char).reverse := by
  unfold erase find_last_not_of
  cases hf : last_not_of_rev (" \t\n\r" : String).data s.data.reverse with
  | none =>
      have h1 := last_not_of_rev_none _ is_trimmed_char mem_trimmed_chars s.data.reverse hf
      have hz : (npos + 1) % 2 ^ 64 = 0 := by decide
      have hm : min npos (s.data.length - 0) = s.data.length := by
        unfold npos; omega
      simp only [size_t_val, hz, hm, h1, List.take_zero, List.nil_append, Nat.zero_add,
        List.drop_length, List.reverse_nil]
  | some k =>
      obtain ⟨h1, h2⟩ := last_not_of_rev_some _ is_trimmed_char mem_trimmed_chars
        s.data.reverse k hf
      simp only [List.length_reverse] at h1 h2
      have hk : (k + 1) % 2 ^ 64 = k + 1 := Nat.mod_eq_of_lt (by omega)
      have hm : k + 1 + min npos (s.data.length - (k + 1)) = s.data.length := by
        unfold npos; omega
      simp only [size_t_val, hk, hm, h2]
      rw [List.drop_reverse]
      simp only [List.reverse_reverse, List.drop_length, List.append_nil]
      congr 2
      omega

theorem cut_spec_of_not_mem (s : List Char) (h : '.' ∉ s) : cut_spec s = s := by
  induction s with
  | nil => rfl
  | cons c cs ih =>
      have hc : c ≠ '.' := fun e => h (by simp [e])
      have hcs : '.' ∉ cs := fun e => h (by simp [e])
      have := ih hcs
      unfold cut_spec at this ⊢
      simp [List.takeWhile_cons, hc, this]

theorem cut_spec_split (pre post : List Char) (h : '.' ∉ pre) :
    cut_spec (pre ++ '.' :: post) = pre := by
  induction pre with
  | nil => simp [cut_spec, List.takeWhile_cons]
  | cons c cs ih =>
      have hc : c ≠ '.' := fun e => h (by simp [e])
      have hcs : '.' ∉ cs := fun e => h (by simp [e])
      have := ih hcs
      unfold cut_spec at this ⊢
      simp [List.takeWhile_cons, hc, this]

/-- The cut at the first dot in `detect_system_locale`. -/
theorem cut_at_dot (s : String) :
    (match str_find_char s '.' with
      | some dot_position => substr s 0 dot_position
      | none => s) = String.mk (cut_spec s.data) := by
  unfold str_find_char
  cases hf : find_from ['.'] s.data 0 with
  | none =>
      rw [cut_spec_of_not_mem s.data (find_from_char_none '.' s.data 0 hf)]
  | some j =>
      obtain ⟨pre, post, hs, hn, hj⟩ := find_from_char_split '.' s.data 0 j hf
      simp only [substr, hs, cut_spec_split pre post hn, hj]
      simp

theorem replace_first_spec_of_not_mem (s : List Char) (h : '_' ∉ s) :
    replace_first_spec s = s := by
  induction s with
  | nil => rfl
  | cons c cs ih =>
      have hc : c ≠ '_' := fun e => h (by simp [e])
      have hcs : '_' ∉ cs := fun e => h (by simp [e])
      simp [replace_first_spec, hc, ih hcs]

theorem replace_first_spec_split (pre post : List Char) (h : '_' ∉ pre) :
    replace_first_spec (pre ++ '_' :: post) = pre ++ '-' :: post := by
  induction pre with
  | nil => simp [replace_first_spec]
  | cons c cs ih =>
      have hc : c ≠ '_' := fun e => h (by simp [e])
      have hcs : '_' ∉ cs := fun e => h (by simp [e])
      simp [replace_first_spec, hc, ih hcs]

/-- The replacement of the first underscore in `detect_system_locale`. -/
theorem replace_at_underscore (s : String) :
    (match str_find_char s '_' with
      | some underscore_position => set_char s underscore_position '-'
      | none => s) = String.mk (replace_first_spec s.data) := by
  unfold str_find_char
  cases hf : find_from ['_'] s.data 0 with
  | none =>
      rw [replace_first_spec_of_not_mem s.data (find_from_char_none '_' s.data 0 hf)]
  | some j =>
      obtain ⟨pre, post, hs, hn, hj⟩ := find_from_char_split '_' s.data 0 j hf
      simp only [set_char, hs, replace_first_spec_split pre post hn, hj]
      simp

/-- C17: `detect_system_locale` returns `en-US` when `LANG` is unset; for a `LANG`
value (of a size a `size_t` can hold) it returns what the description says: `en-US`
when the value, trimmed of the characters space, tab, line feed and carriage return
at both ends and cut at its first dot, is empty, `C` or `POSIX`, and otherwise that
trimmed, cut string with its first underscore replaced by a dash. -/
theorem detect_system_locale_refines (value : String) (hsize : value.data.length < 2 ^ 64) :
    detect_system_locale none = "en-US" ∧
      detect_system_locale (some value) = detect_system_locale_spec (some value) := by
  refine ⟨rfl, ?_⟩
  unfold detect_system_locale detect_system_locale_spec
  simp only
  rw [erase_leading value hsize]
  have hlen : (String.mk (value.data.dropWhile is_trimmed_char)).data.length < 2 ^ 64 := by
    have := (List.dropWhile_suffix is_trimmed_char (l := value.data)).length_le
    simp only
    omega
  rw [erase_trailing _ hlen, cut_at_dot, replace_at_underscore]
  have htrim : (String.mk (List.dropWhile is_trimmed_char
      (String.mk (List.dropWhile is_trimmed_char value.data)).data.reverse).reverse).data =
      trim_spec value.data := rfl
  simp only [htrim]
  have hC : ("C" : String) = String.mk ['C'] := rfl
  have hP : ("POSIX" : String) = String.mk ['P', 'O', 'S', 'I', 'X'] := rfl
  have hE : ("" : String) = String.mk [] := rfl
  have hmk : ∀ a b : List Char, String.mk a = String.mk b ↔ a = b :=
    fun a b => ⟨fun h => congrArg String.data h, fun h => congrArg String.mk h⟩
  rw [hC, hP, hE]
  simp only [hmk]
  rfl

theorem detect_system_locale_refines_witness :
    detect_system_locale (some "en_US.UTF-8") = "en-US" ∧
      detect_system_locale (some "C.UTF-8") = "en-US" ∧
      detect_system_locale (some "POSIX") = "en-US" ∧
      detect_system_locale (some "  ") = "en-US" ∧
      detect_system_locale (some " fr_CA_x.1 ") = "fr-CA_x" :=
  ⟨(detect_system_locale_refines "en_US.UTF-8" (by decide)).2.trans (by decide),
    (detect_system_locale_refines "C.UTF-8" (by decide)).2.trans (by decide),
    by decide, by decide, by decide⟩

/-- C13, the code at an input where it and the test `translator detects system
locale` part: with `LANG=fr` the detected locale is `fr`, which is not empty and
holds no dash. -/
theorem detect_system_locale_without_dash :
    detect_system_locale (some "fr") = "fr" ∧ str_find_char "fr" '-' = none := by
  decide

/-! ## The text the embedding tool writes -/

/-- C15, the code at an input where the written literal and the original part:
for the two-character text backslash `n` the loop changes nothing, the tool writes
the literal `"\n"`, and that literal denotes the one-character line feed. -/
theorem embedded_literal_differs :
    escape_loop 3 "\\n" 0 = some "\\n" ∧
      emit_locale_line "en" "\\n" = "            \x7b\"en\", \"\\n\"\x7d,\n" ∧
      literal_value ("\\n" : String).data = some ['\n'] ∧
      ['\n'] ≠ ("\\n" : String).data := by
  decide

/-! ## A current locale without a dash -/

theorem str_find_char_of_not_mem (s : String) (c : Char) (h : c ∉ s.data) :
    str_find_char s c = none := by
  unfold str_find_char
  cases hf : find_from [c] s.data 0 with
  | none => rfl
  | some j =>
      obtain ⟨pre, post, hs, _, _⟩ := find_from_char_split c s.data 0 j hf
      exact absurd (by rw [hs]; simp) h

/-- C21: when the current locale holds no dash and the locale-map of a stored
identifier has no key equal to it, `translate(identifier)` returns the string of
the first entry `(code, s)` of the locale-map, whatever the later entries `others`
are, those whose code starts with the current locale included. -/
theorem translate_no_dash_first_entry (t : translator) (identifier : String)
    (code s : String) (others : umap String)
    (hstore : t.translations_.wf)
    (hid : (identifier, (code, s) :: others) ∈ t.translations_)
    (hexact : t.current_locale_ ∉ ((code, s) :: others).map Prod.fst)
    (hdash : '-' ∉ t.current_locale_.data) :
    translate t identifier = some s := by
  unfold translate
  rw [umap.find_of_mem t.translations_ identifier _ hstore hid]
  simp only
  rw [(umap.find_none_iff _ _).mpr hexact]
  have hfb : base_fallback t.current_locale_ ((code, s) :: others) = none := by
    unfold base_fallback
    rw [str_find_char_of_not_mem t.current_locale_ '-' hdash]
  rw [hfb]
  rfl

theorem translate_no_dash_first_entry_witness :
    ("en" : String).data <+: ("en-US" : String).data ∧
      translate ⟨"en", [("test.key", [("fr-FR", "Français"), ("en-US", "English")])]⟩
        "test.key" = some "Français" :=
  ⟨by decide,
    translate_no_dash_first_entry _ "test.key" "fr-FR" "Français" [("en-US", "English")]
      (by decide) (by decide) (by decide) (by decide)⟩

end linguist
